import Mathlib

/-!
# The example objectives of go-lbfgsb

A shallow embedding of `example/example.go`: the sphere and Rosenbrock
objective callbacks, each written as a function on an explicit memory of
backing arrays, so that slices are references and writes are visible.

Floating-point numbers are read as elements of a commutative ring `R`
(the rationals to run the definitions, the reals to state the analysis).
Where rounding decides a statement, `SphereFunction.Evaluate` is run on `F64`,
a model of binary64 addition and multiplication.
-/

namespace GoLbfgsb

/-- The indexing operation that raised a run-time panic: reading an element
(`s[i]` as a value) or assigning one (`s[i] = v`). -/
inductive Access where
  | load
  | store
  deriving DecidableEq, Repr

/-- The run-time panic of an indexing operation: `index out of range [index]
with length length`.  The message carries the index and the length; `access`
records which operation of the statement raised it. -/
inductive GoError where
  | indexOutOfRange (access : Access) (index : Nat) (length : Nat)
  deriving DecidableEq, Repr

/-- A slice value `[]float64`: a reference to its backing array.  The program
never reslices, so a slice always covers its whole backing array. -/
structure Slice where
  addr : Nat
  deriving DecidableEq, Repr

/-- The memory: one list of numbers per allocated backing array. -/
abbrev Memory (R : Type) := List (List R)

/-- The elements a slice refers to. -/
def content {R : Type} (m : Memory R) (s : Slice) : List R :=
  m.getD s.addr []

/-- Go's `len(s)`. -/
def len {R : Type} (m : Memory R) (s : Slice) : Nat :=
  (content m s).length

/-- Go's `make([]float64, n)`: a fresh backing array of `n` zeros. -/
def make {R : Type} [Zero R] (m : Memory R) (n : Nat) : Slice × Memory R :=
  (⟨m.length⟩, m ++ [List.replicate n 0])

/-- Go's index expression `s[i]` read as a value. -/
def load {R : Type} (m : Memory R) (s : Slice) (i : Nat) : Except GoError R :=
  match (content m s)[i]? with
  | some v => .ok v
  | none => .error (.indexOutOfRange .load i (len m s))

/-- The memory with element `i` of the backing array of `s` replaced by `v`. -/
def update {R : Type} (m : Memory R) (s : Slice) (i : Nat) (v : R) : Memory R :=
  m.set s.addr ((content m s).set i v)

/-- Go's assignment `s[i] = v`. -/
def store {R : Type} (m : Memory R) (s : Slice) (i : Nat) (v : R) :
    Except GoError (Memory R) :=
  if i < len m s then .ok (update m s i v)
  else .error (.indexOutOfRange .store i (len m s))

/-- Go's `for ; i < bound; i++ { body }` with loop variable `i` and the
variables the body assigns in `s`.  The bound is an `int`; the final value of
`i` is returned with the state.  The bounds of this program, `len(point)` and
`len(point) - 1`, keep their value through the loop, since no slice variable
is reassigned; a `range` loop is the case with bound `len(point)`. -/
def forLoop {σ : Type} (bound : Int) (body : Nat → σ → Except GoError σ)
    (i : Nat) (s : σ) : Except GoError (Nat × σ) :=
  if (i : Int) < bound then
    match body i s with
    | .ok s' => forLoop bound body (i + 1) s'
    | .error e => .error e
  else .ok (i, s)
termination_by (bound - i).toNat
decreasing_by omega

/-- Simple square function rather than calling math.Pow. -/
def Pow2 {R : Type} [Mul R] (x : R) : R :=
  x * x

/-- Sphere (multi-dimensional parabola) function as a FunctionWithGradient
object: `type SphereFunction struct {}`. -/
structure SphereFunction where
  deriving DecidableEq, Repr

/-- Sphere function. -/
def SphereFunction.Evaluate {R : Type} [Zero R] [Add R] [Mul R] (_sf : SphereFunction)
    (m : Memory R) (point : Slice) : Except GoError (R × Memory R) := do
  let value : R := 0
  -- for _, x := range point { value += x * x }
  let (_, value) ← forLoop (len m point) (fun i value => do
    let x ← load m point i
    pure (value + x * x)) 0 value
  return (value, m)

/-- Sphere function gradient. -/
def SphereFunction.EvaluateGradient {R : Type} [CommRing R] (_sf : SphereFunction)
    (m : Memory R) (point : Slice) : Except GoError (Slice × Memory R) := do
  let (gradient, m) := make m (len m point)
  -- for i, x := range point { gradient[i] = 2.0 * x }
  let (_, m) ← forLoop (len m point) (fun i m => do
    let x ← load m point i
    store m gradient i (2 * x)) 0 m
  return (gradient, m)

/-- Rosenbrock function value.  The bound `len(point) - 1` is an `int` and is
negative on the empty point. -/
def RosenbrockFunction {R : Type} [CommRing R]
    (m : Memory R) (point : Slice) : Except GoError (R × Memory R) := do
  let value : R := 0
  let (_, value) ← forLoop ((len m point : Int) - 1) (fun i value => do
    pure (value + (Pow2 (1 - (← load m point i)) +
      100 * Pow2 ((← load m point (i + 1)) - Pow2 (← load m point i))))) 0 value
  return (value, m)

/-- Rosenbrock function gradient.  In each assignment the right-hand side is
evaluated, operand by operand from the left, before the element is stored.
The loop variable is at least 1 wherever `i - 1` is read, so the subtraction
on naturals is the one on `int`. -/
def RosenbrockGradient {R : Type} [CommRing R]
    (m : Memory R) (point : Slice) : Except GoError (Slice × Memory R) := do
  let (gradient, m) := make m (len m point)
  let m ← store m gradient 0
    (-400 * (← load m point 0) * ((← load m point 1) - Pow2 (← load m point 0)) -
      2 * (1 - (← load m point 0)))
  let (i, m) ← forLoop ((len m point : Int) - 1) (fun i m => do
    store m gradient i
      (-400 * (← load m point i) * ((← load m point (i + 1)) - Pow2 (← load m point i)) -
        2 * (1 - 101 * (← load m point i) + 100 * Pow2 (← load m point (i - 1))))) 1 m
  let m ← store m gradient i
    (200 * ((← load m point i) - Pow2 (← load m point (i - 1))))
  return (gradient, m)

/-- One summand of the Rosenbrock value, as the loop body of
`RosenbrockFunction` adds it for neighbouring coordinates `a`, `b`. -/
def rosenTerm {R : Type} [CommRing R] (a b : R) : R :=
  Pow2 (1 - a) + 100 * Pow2 (b - Pow2 a)

/-- Component `i` of the Rosenbrock gradient, as the three assignments of
`RosenbrockGradient` compute it for a point `x`. -/
def rosenGradAt {R : Type} [CommRing R] (x : List R) (i : Nat) : R :=
  if i = 0 then
    -400 * x.getD 0 0 * (x.getD 1 0 - Pow2 (x.getD 0 0)) - 2 * (1 - x.getD 0 0)
  else if i + 1 < x.length then
    -400 * x.getD i 0 * (x.getD (i + 1) 0 - Pow2 (x.getD i 0)) -
      2 * (1 - 101 * x.getD i 0 + 100 * Pow2 (x.getD (i - 1) 0))
  else
    200 * (x.getD i 0 - Pow2 (x.getD (i - 1) 0))

/-- Modelled from the spec: the bound of one coordinate, a part of the solver
that is not in the example source.  "For each coordinate a tag in {free,
lower, upper, both} and the corresponding finite lower/upper values." -/
inductive Bound (R : Type) where
  | free
  | lower (l : R)
  | upper (u : R)
  | both (l u : R)
  deriving DecidableEq, Repr

/-- Modelled from the spec: a bound is well formed when its lower value does
not exceed its upper value (the solver rejects `lower > upper` as invalid
input). -/
def Bound.valid {R : Type} [LE R] : Bound R → Prop
  | .both l u => l ≤ u
  | _ => True

instance {R : Type} [LE R] [(a b : R) → Decidable (a ≤ b)] (b : Bound R) :
    Decidable b.valid := by
  cases b <;> unfold Bound.valid <;> infer_instance

/-- Modelled from the spec: a coordinate value is feasible when it lies
inside the bound ("x is componentwise within bounds"). -/
def Bound.contains {R : Type} [LE R] : Bound R → R → Prop
  | .free, _ => True
  | .lower l, x => l ≤ x
  | .upper u, x => x ≤ u
  | .both l u, x => l ≤ x ∧ x ≤ u

instance {R : Type} [LE R] [(a b : R) → Decidable (a ≤ b)] (b : Bound R) (x : R) :
    Decidable (b.contains x) := by
  cases b <;> unfold Bound.contains <;> infer_instance

/-- Modelled from the spec: the projection `P(v, l, u)` of one coordinate onto
its bound, the solver's vector kernel "projection onto box": a value below
the lower bound goes to the lower bound, a value above the upper bound to the
upper bound, any other value stays. -/
def Bound.project {R : Type} [LT R] [(a b : R) → Decidable (a < b)] : Bound R → R → R
  | .free, v => v
  | .lower l, v => if v < l then l else v
  | .upper u, v => if u < v then u else v
  | .both l u, v => if v < l then l else if u < v then u else v

/-! ## Binary64 arithmetic

The value of a sphere objective on `float64` numbers, for the inputs on which
rounding decides a claim. -/

/-- A `float64` value (IEEE 754 binary64).  Every finite binary64 number is a
whole multiple of `2^-1074`: `finite neg n` is `(-1)^neg * n * 2^-1074`, with
`n` below `2^2098` and of at most 53 significant bits.  The two zeros are
`finite false 0` and `finite true 0`. -/
inductive F64 where
  | finite (neg : Bool) (n : Nat)
  | inf (neg : Bool)
  | nan
  deriving DecidableEq, Repr

/-- The number of binary digits of `n`, for `n` of at most `fuel` digits. -/
def bitLength : Nat → Nat → Nat
  | 0, _ => 0
  | fuel + 1, n => if n = 0 then 0 else bitLength fuel (n / 2) + 1

/-- Rounding to binary64, to nearest with ties to even: the exact value
`(-1)^neg * N * 2^-(1074 + s)` becomes the nearest number of 53 significant
bits on the grid of multiples of `2^-1074`, or an infinity when that number is
`2^1024` or more.  Exact products and sums of binary64 numbers have fewer
than 4200 digits. -/
def F64.round (neg : Bool) (N : Nat) (s : Nat) : F64 :=
  if N = 0 then .finite neg 0 else
    let drop := max (bitLength 4200 N - 53) s
    let q := N / 2 ^ drop
    let r := N % 2 ^ drop
    let up : Bool :=
      decide (2 ^ drop < 2 * r) || (decide (2 * r = 2 ^ drop) && decide (q % 2 = 1))
    let n := (if up then q + 1 else q) * 2 ^ (drop - s)
    if n < 2 ^ 2098 then .finite neg n else .inf neg

/-- The binary64 product `a * b`. -/
def F64.mul : F64 → F64 → F64
  | .nan, _ => .nan
  | _, .nan => .nan
  | .inf a, .inf b => .inf (xor a b)
  | .inf a, .finite b n => if n = 0 then .nan else .inf (xor a b)
  | .finite a n, .inf b => if n = 0 then .nan else .inf (xor a b)
  | .finite a na, .finite b nb => F64.round (xor a b) (na * nb) 1074

/-- The binary64 sum `a + b`.  An exact sum of zero is `+0` unless both
operands are negative zeros. -/
def F64.add : F64 → F64 → F64
  | .nan, _ => .nan
  | _, .nan => .nan
  | .inf a, .inf b => if a = b then .inf a else .nan
  | .inf a, .finite _ _ => .inf a
  | .finite _ _, .inf b => .inf b
  | .finite a na, .finite b nb =>
    let s : Int := (if a then -(na : Int) else na) + (if b then -(nb : Int) else nb)
    if s = 0 then .finite (a && b) 0 else F64.round (decide (s < 0)) s.natAbs 0

/-- The position of a binary64 number on the extended line, in units of
`2^-1074`; NaN has none. -/
def F64.key : F64 → Option Int
  | .finite neg n => some (if neg then -(n : Int) else n)
  | .inf neg => some (if neg then -(2 ^ 2098 : Int) else 2 ^ 2098)
  | .nan => none

/-- The binary64 comparison `a < b`, false when an operand is NaN. -/
def F64.lt (a b : F64) : Bool :=
  match a.key, b.key with
  | some x, some y => decide (x < y)
  | _, _ => false

/-- The binary64 comparison `a <= b`, false when an operand is NaN. -/
def F64.le (a b : F64) : Bool :=
  match a.key, b.key with
  | some x, some y => decide (x ≤ y)
  | _, _ => false

/-- The binary64 number `(-1)^neg * 2^e`, for `-1074 ≤ e ≤ 1023`. -/
def F64.twoPow (neg : Bool) (e : Int) : F64 :=
  .finite neg (2 ^ (e + 1074).toNat)

instance : Zero F64 := ⟨.finite false 0⟩

instance : Add F64 := ⟨F64.add⟩

instance : Mul F64 := ⟨F64.mul⟩

instance : LT F64 := ⟨fun a b => F64.lt a b = true⟩

instance : LE F64 := ⟨fun a b => F64.le a b = true⟩

instance (a b : F64) : Decidable (a < b) :=
  inferInstanceAs (Decidable (F64.lt a b = true))

instance (a b : F64) : Decidable (a ≤ b) :=
  inferInstanceAs (Decidable (F64.le a b = true))

/-! ## Memory and loop lemmas -/

theorem forLoop_done {σ : Type} (bound : Int) (body : Nat → σ → Except GoError σ)
    (i : Nat) (s : σ) (h : ¬ (i : Int) < bound) :
    forLoop bound body i s = .ok (i, s) := by
  rw [forLoop, if_neg h]

theorem forLoop_step {σ : Type} (bound : Int) (body : Nat → σ → Except GoError σ)
    (i : Nat) (s s' : σ) (h : (i : Int) < bound) (hb : body i s = .ok s') :
    forLoop bound body i s = forLoop bound body (i + 1) s' := by
  rw [forLoop, if_pos h, hb]

/-- Total correctness of a counted loop: if the body succeeds and re-establishes
the invariant at every index below the bound, the loop returns with the loop
variable at the bound and the invariant holding there. -/
theorem forLoop_inv {σ : Type} (lo bound : Nat) (body : Nat → σ → Except GoError σ)
    (Inv : Nat → σ → Prop)
    (hbody : ∀ k s, lo ≤ k → k < bound → Inv k s →
      ∃ s', body k s = .ok s' ∧ Inv (k + 1) s') :
    ∀ (d i : Nat) (s : σ), lo ≤ i → i + d = bound → Inv i s →
      ∃ s', forLoop (bound : Int) body i s = .ok (bound, s') ∧ Inv bound s' := by
  intro d
  induction d with
  | zero =>
    intro i s _ hi h
    have hib : i = bound := by omega
    subst hib
    exact ⟨s, forLoop_done _ _ _ _ (by omega), h⟩
  | succ d ih =>
    intro i s hlo hi h
    obtain ⟨s', hs', hinv⟩ := hbody i s hlo (by omega) h
    rw [forLoop_step _ _ _ _ s' (by omega) hs']
    exact ih (i + 1) s' (by omega) (by omega) hinv

theorem content_append_left {R : Type} (m m' : Memory R) (s : Slice)
    (h : s.addr < m.length) : content (m ++ m') s = content m s := by
  simp [content, List.getD_eq_getElem?_getD, List.getElem?_append_left h]

theorem content_append_fresh {R : Type} (m : Memory R) (g : List R) :
    content (m ++ [g]) ⟨m.length⟩ = g := by
  simp [content, List.getD_eq_getElem?_getD]

theorem addr_lt_of_len_pos {R : Type} (m : Memory R) (s : Slice)
    (h : 0 < len m s) : s.addr < m.length := by
  by_contra hc
  have : content m s = [] := by
    simp [content, List.getD_eq_getElem?_getD, List.getElem?_eq_none (not_lt.mp hc)]
  simp [len, this] at h

theorem load_ok {R : Type} [Zero R] (m : Memory R) (s : Slice) (i : Nat)
    (h : i < len m s) : load m s i = .ok ((content m s).getD i 0) := by
  have h' : i < (content m s).length := h
  simp [load, List.getD_eq_getElem?_getD, List.getElem?_eq_getElem h']

theorem load_oob {R : Type} (m : Memory R) (s : Slice) (i : Nat)
    (h : len m s ≤ i) : load m s i = .error (.indexOutOfRange .load i (len m s)) := by
  have h' : (content m s).length ≤ i := h
  simp [load, List.getElem?_eq_none h']

/-- Reading `point` is not affected by a backing array allocated after it. -/
theorem load_append {R : Type} [Zero R] (m : Memory R) (g : List R) (point : Slice)
    (k : Nat) (hk : k < len m point) :
    load (m ++ [g]) point k = .ok ((content m point).getD k 0) := by
  have hv : point.addr < m.length := addr_lt_of_len_pos m point (by omega)
  have hc : content (m ++ [g]) point = content m point := content_append_left m _ point hv
  rw [← hc]
  exact load_ok _ _ _ (by simp only [len, hc]; exact hk)

theorem len_append {R : Type} (m : Memory R) (g : List R) (point : Slice)
    (h : 0 < len m point) : len (m ++ [g]) point = len m point := by
  show (content (m ++ [g]) point).length = _
  rw [content_append_left m _ point (addr_lt_of_len_pos m point h)]
  rfl

theorem ok_bind {α β : Type} (a : α) (f : α → Except GoError β) :
    (Except.ok a >>= f) = f a :=
  rfl

theorem store_fresh {R : Type} (m : Memory R) (g : List R) (i : Nat) (v : R)
    (h : i < g.length) :
    store (m ++ [g]) ⟨m.length⟩ i v = .ok (m ++ [g.set i v]) := by
  simp [store, update, len, content_append_fresh, h]

/-! ## What the sphere callbacks compute -/

theorem sum_take_succ {R : Type} [CommRing R] (f : R → R) (xs : List R) (k : Nat)
    (h : k < xs.length) :
    ((xs.take (k + 1)).map f).sum = ((xs.take k).map f).sum + f (xs.getD k 0) := by
  rw [List.take_succ, List.getD_eq_getElem?_getD, List.getElem?_eq_getElem h]
  simp only [Option.toList, List.map_append, List.sum_append, List.map_cons, List.map_nil,
    List.sum_cons, List.sum_nil, add_zero, Option.getD_some]

/-- The value returned by `SphereFunction.Evaluate`: the sum of the squares of
the coordinates; the memory is returned as it was. -/
theorem Evaluate_eq {R : Type} [CommRing R] (sf : SphereFunction) (m : Memory R)
    (point : Slice) :
    sf.Evaluate m point = .ok (((content m point).map (fun x => x * x)).sum, m) := by
  obtain ⟨v, hv, hinv⟩ := forLoop_inv 0 (len m point)
    (fun i (value : R) => do
      let x ← load m point i
      pure (value + x * x))
    (fun k v => v = (((content m point).take k).map (fun x => x * x)).sum)
    (by
      intro k v _ hk hv
      refine ⟨v + (content m point).getD k 0 * (content m point).getD k 0, ?_, ?_⟩
      · dsimp only
        rw [load_ok m point k hk]; rfl
      · dsimp only
        rw [sum_take_succ _ _ _ hk, hv])
    (len m point) 0 0 (le_refl 0) (by simp) (by simp)
  simp only [SphereFunction.Evaluate]
  rw [hv]
  simp only [len, List.take_length] at hinv
  rw [hinv]
  rfl

theorem content_eq_nil_of_not_lt {R : Type} (m : Memory R) (s : Slice)
    (h : ¬ s.addr < m.length) : content m s = [] := by
  simp [content, List.getD_eq_getElem?_getD, List.getElem?_eq_none (not_lt.mp h)]

/-- Allocating the result does not change what `point` refers to, also when
`point` is a nil slice. -/
theorem content_make {R : Type} [Zero R] (m : Memory R) (point : Slice) :
    content (m ++ [List.replicate (len m point) (0 : R)]) point = content m point := by
  by_cases h : point.addr < m.length
  · exact content_append_left m _ point h
  · have h0 : content m point = [] := content_eq_nil_of_not_lt m point h
    rw [h0]
    simp only [len, h0, List.length_nil, List.replicate_zero]
    by_cases h1 : point.addr = m.length
    · have : point = ⟨m.length⟩ := by cases point; simp_all
      rw [this]
      exact content_append_fresh m []
    · apply content_eq_nil_of_not_lt
      simp only [List.length_append, List.length_singleton]
      omega

theorem len_make {R : Type} [Zero R] (m : Memory R) (point : Slice) :
    len (m ++ [List.replicate (len m point) (0 : R)]) point = len m point := by
  show (content (m ++ [List.replicate (len m point) (0 : R)]) point).length = _
  rw [content_make]
  rfl

/-- The result of `SphereFunction.EvaluateGradient`: a freshly allocated slice
holding twice each coordinate, appended to the memory it was given. -/
theorem EvaluateGradient_eq {R : Type} [CommRing R] (sf : SphereFunction) (m : Memory R)
    (point : Slice) :
    sf.EvaluateGradient m point =
      .ok (⟨m.length⟩, m ++ [(content m point).map (fun x => 2 * x)]) := by
  obtain ⟨m', hm', g, hg, hlen, hget⟩ := forLoop_inv 0 (len m point)
    (fun i (m' : Memory R) => do
      let x ← load m' point i
      store m' (⟨m.length⟩ : Slice) i (2 * x))
    (fun k m' => ∃ g : List R, m' = m ++ [g] ∧ g.length = len m point ∧
      ∀ j, j < k → g[j]? = some (2 * (content m point).getD j 0))
    (by
      intro k m' _ hk hinv
      obtain ⟨g, rfl, hlen, hget⟩ := hinv
      have hl : load (m ++ [g]) point k = .ok ((content m point).getD k 0) :=
        load_append m g point k hk
      refine ⟨m ++ [g.set k (2 * (content m point).getD k 0)], ?_, _, rfl, ?_, ?_⟩
      · dsimp only
        rw [hl]
        exact store_fresh m g k _ (by omega)
      · simp [hlen]
      · intro j hj
        by_cases hjk : j = k
        · subst hjk
          simp [List.getElem?_set, hlen, hk]
        · rw [List.getElem?_set_ne (Ne.symm hjk)]
          exact hget j (by omega))
    (len m point) 0 (m ++ [List.replicate (len m point) 0]) (le_refl 0) (by simp)
    ⟨_, rfl, by simp, by intro j hj; omega⟩
  simp only [SphereFunction.EvaluateGradient, make, len_make]
  rw [hm', hg]
  have : g = (content m point).map (fun x => 2 * x) := by
    apply List.ext_getElem?
    intro j
    by_cases hj : j < len m point
    · rw [hget j hj]
      have hj' : j < (content m point).length := hj
      simp [List.getD_eq_getElem?_getD, List.getElem?_eq_getElem hj']
    · have h1 : g.length ≤ j := by omega
      have h2 : ((content m point).map (fun x => 2 * x)).length ≤ j := by
        simp only [List.length_map]; exact not_lt.mp hj
      rw [List.getElem?_eq_none h1, List.getElem?_eq_none h2]
  rw [this]
  rfl

/-! ## What the Rosenbrock callbacks compute -/

/-- The value returned by `RosenbrockFunction`: the sum of the summands over
the neighbouring pairs; the memory is returned as it was. -/
theorem RosenbrockFunction_eq {R : Type} [CommRing R] (m : Memory R) (point : Slice) :
    RosenbrockFunction m point =
      .ok (∑ k in Finset.range (len m point - 1),
        rosenTerm ((content m point).getD k 0) ((content m point).getD (k + 1) 0), m) := by
  by_cases hn : len m point = 0
  · simp only [RosenbrockFunction, hn]
    rw [forLoop_done _ _ _ _ (by simp)]
    rfl
  · have hb : (len m point : Int) - 1 = ((len m point - 1 : Nat) : Int) := by omega
    obtain ⟨v, hv, hinv⟩ := forLoop_inv 0 (len m point - 1)
      (fun i (value : R) => do
        pure (value + (Pow2 (1 - (← load m point i)) +
          100 * Pow2 ((← load m point (i + 1)) - Pow2 (← load m point i)))))
      (fun k v => v = ∑ j in Finset.range k,
        rosenTerm ((content m point).getD j 0) ((content m point).getD (j + 1) 0))
      (by
        intro k v _ hk hv
        refine ⟨v + rosenTerm ((content m point).getD k 0)
          ((content m point).getD (k + 1) 0), ?_, ?_⟩
        · dsimp only
          rw [load_ok m point k (by omega), load_ok m point (k + 1) (by omega)]
          rfl
        · dsimp only
          rw [Finset.sum_range_succ, hv])
      (len m point - 1) 0 0 (le_refl 0) (by simp) (by simp)
    simp only [RosenbrockFunction]
    rw [hb, hv, hinv]
    rfl

theorem list_eq_map_range {R : Type} (g : List R) (n : Nat) (f : Nat → R)
    (hlen : g.length = n) (h : ∀ j, j < n → g[j]? = some (f j)) :
    g = (List.range n).map f := by
  apply List.ext_getElem?
  intro j
  by_cases hj : j < n
  · rw [h j hj]
    simp [List.getElem?_range hj]
  · have h1 : g.length ≤ j := by omega
    have h2 : ((List.range n).map f).length ≤ j := by simp; omega
    rw [List.getElem?_eq_none h1, List.getElem?_eq_none h2]

/-- The result of `RosenbrockGradient` on a point of length at least 2: a
freshly allocated slice holding the gradient components, appended to the
memory it was given. -/
theorem RosenbrockGradient_eq {R : Type} [CommRing R] (m : Memory R) (point : Slice)
    (hn : 2 ≤ len m point) :
    RosenbrockGradient m point =
      .ok (⟨m.length⟩, m ++ [(List.range (len m point)).map (rosenGradAt (content m point))]) := by
  have hb : (len m point : Int) - 1 = ((len m point - 1 : Nat) : Int) := by omega
  obtain ⟨m', hm', g, hg, hlen, hget⟩ := forLoop_inv 1 (len m point - 1)
    (fun i (m' : Memory R) => do
      store m' (⟨m.length⟩ : Slice) i
        (-400 * (← load m' point i) * ((← load m' point (i + 1)) - Pow2 (← load m' point i)) -
          2 * (1 - 101 * (← load m' point i) + 100 * Pow2 (← load m' point (i - 1)))))
    (fun k m' => ∃ g : List R, m' = m ++ [g] ∧ g.length = len m point ∧
      ∀ j, j < k → g[j]? = some (rosenGradAt (content m point) j))
    (by
      intro k m' hk1 hk hinv
      obtain ⟨g, rfl, hlen, hget⟩ := hinv
      refine ⟨m ++ [g.set k (rosenGradAt (content m point) k)], ?_, _, rfl, ?_, ?_⟩
      · dsimp only
        rw [load_append m g point k (by omega), load_append m g point (k + 1) (by omega),
          load_append m g point (k - 1) (by omega)]
        have hk' : k + 1 < (content m point).length := by
          show k + 1 < len m point
          omega
        have : rosenGradAt (content m point) k =
            -400 * (content m point).getD k 0 *
              ((content m point).getD (k + 1) 0 - Pow2 ((content m point).getD k 0)) -
            2 * (1 - 101 * (content m point).getD k 0 +
              100 * Pow2 ((content m point).getD (k - 1) 0)) := by
          rw [rosenGradAt, if_neg (by omega), if_pos hk']
        rw [this]
        exact store_fresh m g k _ (by omega)
      · simp [hlen]
      · intro j hj
        by_cases hjk : j = k
        · subst hjk
          have : j < g.length := by omega
          simp [List.getElem?_set, this]
        · rw [List.getElem?_set_ne (Ne.symm hjk)]
          exact hget j (by omega))
    (len m point - 2) 1
    (m ++ [(List.replicate (len m point) (0 : R)).set 0 (rosenGradAt (content m point) 0)])
    (le_refl 1) (by omega)
    ⟨_, rfl, by simp, by
      intro j hj
      have hj0 : j = 0 := by omega
      subst hj0
      have : 0 < len m point := by omega
      simp [List.getElem?_set, this]⟩
  have hlast : ¬ (len m point - 1 + 1 < (content m point).length) := by
    show ¬ (len m point - 1 + 1 < len m point)
    omega
  have hfirst : store (m ++ [List.replicate (len m point) (0 : R)]) ⟨m.length⟩ 0
      (rosenGradAt (content m point) 0) =
      .ok (m ++ [(List.replicate (len m point) (0 : R)).set 0
        (rosenGradAt (content m point) 0)]) :=
    store_fresh m _ 0 _ (by simp; omega)
  simp only [RosenbrockGradient, make, len_make]
  rw [load_append m _ point 0 (by omega), load_append m _ point 1 (by omega)]
  have h0 : rosenGradAt (content m point) 0 =
      -400 * (content m point).getD 0 0 *
        ((content m point).getD 1 0 - Pow2 ((content m point).getD 0 0)) -
      2 * (1 - (content m point).getD 0 0) := by
    rw [rosenGradAt, if_pos rfl]
  rw [h0] at hfirst hm'
  rw [ok_bind, ok_bind, ok_bind, ok_bind, hfirst, ok_bind, len_append m _ point (by omega),
    hb, hm', ok_bind]
  dsimp only
  subst hg
  rw [load_append m g point _ (by omega), load_append m g point _ (by omega), ok_bind, ok_bind,
    store_fresh m g _ _ (by omega), ok_bind]
  have hg' : g.set (len m point - 1)
      (200 * ((content m point).getD (len m point - 1) 0 -
        Pow2 ((content m point).getD (len m point - 1 - 1) 0))) =
      (List.range (len m point)).map (rosenGradAt (content m point)) := by
    apply list_eq_map_range
    · simp [hlen]
    · intro j hj
      by_cases hjl : j = len m point - 1
      · subst hjl
        have h1 : len m point - 1 < g.length := by omega
        rw [rosenGradAt, if_neg (by omega), if_neg hlast]
        simp [List.getElem?_set, h1]
      · rw [List.getElem?_set_ne (Ne.symm hjl)]
        exact hget j (by omega)
  rw [hg']
  rfl

/-- On the empty point the first statement of `RosenbrockGradient` already
fails when it reads `point[0]`: index 0 is out of range for length 0. -/
theorem RosenbrockGradient_len_zero {R : Type} [CommRing R] (m : Memory R) (point : Slice)
    (hn : len m point = 0) :
    RosenbrockGradient m point = .error (.indexOutOfRange .load 0 0) := by
  have h : load (m ++ [List.replicate (len m point) (0 : R)]) point 0 =
      .error (.indexOutOfRange .load 0 0) := by
    have := load_oob (m ++ [List.replicate (len m point) (0 : R)]) point 0
      (by rw [len_make]; omega)
    rw [len_make] at this
    rw [this, hn]
  simp only [RosenbrockGradient, make]
  rw [h]
  rfl

/-- On a point of length 1 the first statement of `RosenbrockGradient` fails
when it reads `point[1]`. -/
theorem RosenbrockGradient_len_one {R : Type} [CommRing R] (m : Memory R) (point : Slice)
    (hn : len m point = 1) :
    RosenbrockGradient m point = .error (.indexOutOfRange .load 1 1) := by
  have h : load (m ++ [List.replicate (len m point) (0 : R)]) point 1 =
      .error (.indexOutOfRange .load 1 1) := by
    have := load_oob (m ++ [List.replicate (len m point) (0 : R)]) point 1
      (by rw [len_make]; omega)
    rw [len_make] at this
    rw [this, hn]
  simp only [RosenbrockGradient, make]
  rw [load_append m _ point 0 (by omega), ok_bind, h]
  rfl

/-- Appending a backing array of the length of `point` leaves `point` as it
was, also when `point` is a nil slice. -/
theorem content_append_result {R : Type} (m : Memory R) (point : Slice) (g : List R)
    (hg : g.length = len m point) : content (m ++ [g]) point = content m point := by
  by_cases h : point.addr < m.length
  · exact content_append_left m _ point h
  · have h0 : content m point = [] := content_eq_nil_of_not_lt m point h
    have hg0 : g = [] := by
      apply List.eq_nil_of_length_eq_zero
      rw [hg]
      show (content m point).length = 0
      rw [h0]
      rfl
    subst hg0
    rw [h0]
    by_cases h1 : point.addr = m.length
    · have : point = ⟨m.length⟩ := by cases point; simp_all
      rw [this]
      exact content_append_fresh m []
    · apply content_eq_nil_of_not_lt
      simp only [List.length_append, List.length_singleton]
      omega

theorem getD_replicate_lt {R : Type} [Zero R] (n k : Nat) (a : R) (h : k < n) :
    (List.replicate n a).getD k 0 = a := by
  simp [List.getD_eq_getElem?_getD, List.getElem?_replicate, h]

theorem getD_map_range {R : Type} [Zero R] (n i : Nat) (f : Nat → R) (h : i < n) :
    ((List.range n).map f).getD i 0 = f i := by
  simp [List.getD_eq_getElem?_getD, List.getElem?_range h]

/-- At the all-ones point every component of the Rosenbrock gradient vanishes. -/
theorem rosenGradAt_ones {R : Type} [CommRing R] (n j : Nat) (hn : 2 ≤ n) (hj : j < n) :
    rosenGradAt (List.replicate n (1 : R)) j = 0 := by
  unfold rosenGradAt
  split_ifs with h0 h1
  · rw [getD_replicate_lt n 0 1 (by omega), getD_replicate_lt n 1 1 (by omega)]
    simp [Pow2]
  · rw [getD_replicate_lt n j 1 hj, getD_replicate_lt n (j + 1) 1 (by simpa using h1),
      getD_replicate_lt n (j - 1) 1 (by omega)]
    simp only [Pow2]
    ring
  · rw [getD_replicate_lt n j 1 hj, getD_replicate_lt n (j - 1) 1 (by omega)]
    simp [Pow2]

/-! ## Algebra of the two objectives over the reals -/

theorem sumsq_nonneg (xs : List ℝ) : 0 ≤ (xs.map (fun x => x * x)).sum := by
  induction xs with
  | nil => simp
  | cons a rest ih =>
    simp only [List.map_cons, List.sum_cons]
    nlinarith [mul_self_nonneg a]

theorem sumsq_eq_zero_iff (xs : List ℝ) :
    (xs.map (fun x => x * x)).sum = 0 ↔ ∀ x ∈ xs, x = 0 := by
  induction xs with
  | nil => simp
  | cons a rest ih =>
    simp only [List.map_cons, List.sum_cons, List.mem_cons, forall_eq_or_imp]
    constructor
    · intro h
      have h1 := sumsq_nonneg rest
      have h2 := mul_self_nonneg a
      have ha : a * a = 0 := by linarith
      have hr : (rest.map (fun x => x * x)).sum = 0 := by linarith
      exact ⟨mul_self_eq_zero.mp ha, ih.mp hr⟩
    · rintro ⟨ha, hr⟩
      rw [ih.mpr hr, ha]
      simp

theorem rosenTerm_nonneg (a b : ℝ) : 0 ≤ rosenTerm a b := by
  unfold rosenTerm Pow2
  nlinarith [mul_self_nonneg (1 - a), mul_self_nonneg (b - a * a)]

theorem rosenTerm_eq_zero_iff (a b : ℝ) : rosenTerm a b = 0 ↔ a = 1 ∧ b = 1 := by
  unfold rosenTerm Pow2
  constructor
  · intro h
    have h1 := mul_self_nonneg (1 - a)
    have h2 := mul_self_nonneg (b - a * a)
    have e1 : (1 - a) * (1 - a) = 0 := by linarith
    have e2 : (b - a * a) * (b - a * a) = 0 := by linarith
    have ha : a = 1 := by
      have := mul_self_eq_zero.mp e1
      linarith
    have hb := mul_self_eq_zero.mp e2
    subst ha
    exact ⟨rfl, by linarith⟩
  · rintro ⟨rfl, rfl⟩
    norm_num

theorem getD_mem {R : Type} [Zero R] (xs : List R) (k : Nat) (h : k < xs.length) :
    xs.getD k 0 ∈ xs := by
  rw [List.getD_eq_getElem?_getD, List.getElem?_eq_getElem h]
  exact List.getElem_mem h

theorem rosenSum_eq_zero_iff (xs : List ℝ) (hn : 2 ≤ xs.length) :
    ∑ k in Finset.range (xs.length - 1), rosenTerm (xs.getD k 0) (xs.getD (k + 1) 0) = 0 ↔
      ∀ x ∈ xs, x = 1 := by
  rw [Finset.sum_eq_zero_iff_of_nonneg (fun k _ => rosenTerm_nonneg _ _)]
  constructor
  · intro h x hx
    obtain ⟨j, hj, rfl⟩ := List.getElem_of_mem hx
    by_cases hjl : j < xs.length - 1
    · have := ((rosenTerm_eq_zero_iff _ _).mp (h j (Finset.mem_range.mpr hjl))).1
      rwa [List.getD_eq_getElem?_getD, List.getElem?_eq_getElem hj] at this
    · have hj2 : j = xs.length - 2 + 1 := by omega
      have := ((rosenTerm_eq_zero_iff _ _).mp
        (h (xs.length - 2) (Finset.mem_range.mpr (by omega)))).2
      rw [← hj2] at this
      rwa [List.getD_eq_getElem?_getD, List.getElem?_eq_getElem hj] at this
  · intro h k hk
    have hk' : k < xs.length - 1 := Finset.mem_range.mp hk
    rw [rosenTerm_eq_zero_iff]
    exact ⟨h _ (getD_mem xs k (by omega)), h _ (getD_mem xs (k + 1) (by omega))⟩

/-- In one coordinate the projection of 0 onto a bound has the least square
among the feasible values, and is the only feasible value with that square. -/
theorem project_zero_sq_le (b : Bound ℝ) (x : ℝ) (hv : b.valid) (hx : b.contains x) :
    b.project 0 * b.project 0 ≤ x * x ∧ (b.project 0 * b.project 0 = x * x → x = b.project 0) := by
  have hzero : ∀ y : ℝ, (0 : ℝ) * 0 ≤ y * y ∧ ((0 : ℝ) * 0 = y * y → y = 0) := by
    intro y
    refine ⟨by nlinarith [mul_self_nonneg y], fun h => ?_⟩
    have : y * y = 0 := by linarith
    exact mul_self_eq_zero.mp this
  cases b with
  | free => exact hzero x
  | lower l =>
    simp only [Bound.project, Bound.contains] at *
    split_ifs with h
    · exact ⟨by nlinarith, fun e => by nlinarith⟩
    · exact hzero x
  | upper u =>
    simp only [Bound.project, Bound.contains] at *
    split_ifs with h
    · exact ⟨by nlinarith, fun e => by nlinarith⟩
    · exact hzero x
  | both l u =>
    simp only [Bound.project, Bound.contains, Bound.valid] at *
    obtain ⟨hl, hu⟩ := hx
    split_ifs with h h'
    · exact ⟨by nlinarith, fun e => by nlinarith⟩
    · exact ⟨by nlinarith, fun e => by nlinarith⟩
    · exact hzero x

theorem project_zero_sumsq_le (box : List (Bound ℝ)) (xs : List ℝ)
    (h : List.Forall₂ (fun b x => b.valid ∧ b.contains x) box xs) :
    ((box.map (fun b => b.project 0)).map (fun x => x * x)).sum ≤
        (xs.map (fun x => x * x)).sum ∧
      (((box.map (fun b => b.project 0)).map (fun x => x * x)).sum =
          (xs.map (fun x => x * x)).sum →
        xs = box.map (fun b => b.project 0)) := by
  induction h with
  | nil => simp
  | @cons b x box' xs' hbx _ ih =>
    obtain ⟨h1, h2⟩ := project_zero_sq_le b x hbx.1 hbx.2
    obtain ⟨i1, i2⟩ := ih
    simp only [List.map_cons, List.sum_cons]
    refine ⟨by linarith, fun e => ?_⟩
    have e1 : b.project 0 * b.project 0 = x * x := by linarith
    have e2 : ((box'.map (fun b => b.project 0)).map (fun x => x * x)).sum =
        (xs'.map (fun x => x * x)).sum := by linarith
    rw [h2 e1, ← i2 e2]

/-! ## Partial derivatives of the two objectives -/

theorem content_update {R : Type} (m : Memory R) (s : Slice) (i : Nat) (t : R)
    (h : s.addr < m.length) : content (update m s i t) s = (content m s).set i t := by
  simp [content, update, List.getD_eq_getElem?_getD, List.getElem?_set, h]

theorem getD_set {R : Type} [Zero R] (xs : List R) (i k : Nat) (t : R) (hi : i < xs.length) :
    (xs.set i t).getD k 0 = if k = i then t else xs.getD k 0 := by
  by_cases hk : k = i
  · subst hk
    simp [List.getD_eq_getElem?_getD, List.getElem?_set, hi]
  · rw [if_neg hk, List.getD_eq_getElem?_getD, List.getD_eq_getElem?_getD,
      List.getElem?_set_ne (Ne.symm hk)]

/-- The sphere value, as a function of coordinate `i` alone, has derivative
`2 * x[i]` at `x[i]`. -/
theorem sumsq_hasDerivAt (xs : List ℝ) :
    ∀ i, i < xs.length →
      HasDerivAt (fun t => ((xs.set i t).map (fun x => x * x)).sum)
        (2 * xs.getD i 0) (xs.getD i 0) := by
  induction xs with
  | nil => intro i hi; simp at hi
  | cons a rest ih =>
    intro i hi
    cases i with
    | zero =>
      simp only [List.set_cons_zero, List.map_cons, List.sum_cons, List.getD_cons_zero]
      have h := ((hasDerivAt_id' a).mul (hasDerivAt_id' a)).add_const
        ((rest.map (fun x => x * x)).sum)
      convert h using 1
      ring
    | succ j =>
      simp only [List.set_cons_succ, List.map_cons, List.sum_cons, List.getD_cons_succ]
      exact (ih j (by simpa using hi)).const_add (a * a)

theorem rosenTerm_hasDerivAt_left (b t0 : ℝ) :
    HasDerivAt (fun t => rosenTerm t b) (-2 * (1 - t0) - 400 * t0 * (b - t0 * t0)) t0 := by
  have h1 : HasDerivAt (fun t : ℝ => 1 - t) (-1) t0 := (hasDerivAt_id' t0).const_sub 1
  have h2 : HasDerivAt (fun t : ℝ => t * t) (1 * t0 + t0 * 1) t0 :=
    (hasDerivAt_id' t0).mul (hasDerivAt_id' t0)
  have h3 : HasDerivAt (fun t : ℝ => b - t * t) (-(1 * t0 + t0 * 1)) t0 := h2.const_sub b
  have h := (h1.mul h1).add ((h3.mul h3).const_mul 100)
  unfold rosenTerm Pow2
  convert h using 1
  ring

theorem rosenTerm_hasDerivAt_right (a t0 : ℝ) :
    HasDerivAt (fun t => rosenTerm a t) (200 * (t0 - a * a)) t0 := by
  have h3 : HasDerivAt (fun t : ℝ => t - a * a) 1 t0 := (hasDerivAt_id' t0).sub_const (a * a)
  have h := ((h3.mul h3).const_mul 100).const_add ((1 - a) * (1 - a))
  unfold rosenTerm Pow2
  convert h using 1
  ring

/-- The contribution of summand `k` to the partial derivative with respect to
coordinate `i`: only the summands `k = i` and `k + 1 = i` depend on it. -/
theorem rosenTerm_hasDerivAt (xs : List ℝ) (i k : Nat) (hi : i < xs.length) :
    HasDerivAt (fun t => rosenTerm ((xs.set i t).getD k 0) ((xs.set i t).getD (k + 1) 0))
      ((if k = i then
          -2 * (1 - xs.getD i 0) - 400 * xs.getD i 0 * (xs.getD (i + 1) 0 - xs.getD i 0 * xs.getD i 0)
        else 0) +
        (if k = i - 1 ∧ 1 ≤ i then
          200 * (xs.getD i 0 - xs.getD (i - 1) 0 * xs.getD (i - 1) 0)
        else 0))
      (xs.getD i 0) := by
  simp only [getD_set xs i _ _ hi]
  by_cases h1 : k = i
  · subst h1
    have h2 : ¬ (k = k - 1 ∧ 1 ≤ k) := by omega
    have h3 : ¬ (k + 1 = k) := by omega
    simp only [if_true, if_neg h2, if_neg h3, add_zero]
    exact rosenTerm_hasDerivAt_left _ _
  · by_cases h2 : k = i - 1 ∧ 1 ≤ i
    · obtain ⟨hk, h1i⟩ := h2
      subst hk
      have h3 : i - 1 + 1 = i := by omega
      have h4 : i - 1 = i - 1 ∧ 1 ≤ i := ⟨rfl, h1i⟩
      rw [if_pos h4, if_neg h1, zero_add]
      simp only [if_neg h1, if_pos h3]
      exact rosenTerm_hasDerivAt_right _ _
    · have h3 : ¬ (k + 1 = i) := by omega
      simp only [if_neg h1, if_neg h2, if_neg h3, add_zero]
      exact hasDerivAt_const _ _

/-- The Rosenbrock value, as a function of coordinate `i` alone, has at `x[i]`
the derivative that `RosenbrockGradient` stores in component `i`. -/
theorem rosenSum_hasDerivAt (xs : List ℝ) (hn : 2 ≤ xs.length) (i : Nat) (hi : i < xs.length) :
    HasDerivAt
      (fun t => ∑ k in Finset.range (xs.length - 1),
        rosenTerm ((xs.set i t).getD k 0) ((xs.set i t).getD (k + 1) 0))
      (rosenGradAt xs i) (xs.getD i 0) := by
  have h := HasDerivAt.sum (u := Finset.range (xs.length - 1))
    (fun k _ => rosenTerm_hasDerivAt xs i k hi)
  convert h using 1
  rw [Finset.sum_add_distrib, Finset.sum_ite_eq']
  by_cases h1 : 1 ≤ i
  · have hc : ∀ k, (k = i - 1 ∧ 1 ≤ i) ↔ k = i - 1 :=
      fun k => ⟨fun h => h.1, fun h => ⟨h, h1⟩⟩
    simp only [hc, Finset.sum_ite_eq', Finset.mem_range]
    unfold rosenGradAt
    rw [if_neg (by omega)]
    by_cases h2 : i + 1 < xs.length
    · rw [if_pos h2, if_pos (by omega), if_pos (by omega)]
      simp only [Pow2]
      ring
    · rw [if_neg h2, if_neg (by omega), if_pos (by omega)]
      simp only [Pow2]
      ring
  · have hi0 : i = 0 := by omega
    subst hi0
    have hc : ∀ k, ¬ (k = 0 - 1 ∧ 1 ≤ 0) := fun k h => h1 h.2
    simp only [hc, if_false, Finset.sum_const_zero, Finset.mem_range]
    unfold rosenGradAt
    rw [if_pos rfl, if_pos (by omega)]
    simp only [Pow2]
    ring

/-! ## The claims -/

/-- C1: over the reals, for every point of length `n ≥ 2`,
`RosenbrockGradient` returns the gradient of `RosenbrockFunction` at the
point: for every index `i < n`, the value `RosenbrockFunction` returns, taken
as a function `f` of coordinate `i` with the other coordinates fixed, has at
`point[i]` the derivative held in component `i` of the returned slice. -/
theorem rosenbrock_gradient_is_gradient (m : Memory ℝ) (point : Slice)
    (hn : 2 ≤ len m point) :
    ∃ gradient m', RosenbrockGradient m point = .ok (gradient, m') ∧
      len m' gradient = len m point ∧
      ∀ i, i < len m point → ∃ f : ℝ → ℝ,
        (∀ t, RosenbrockFunction (update m point i t) point =
          .ok (f t, update m point i t)) ∧
        HasDerivAt f ((content m' gradient).getD i 0) ((content m point).getD i 0) := by
  have hv : point.addr < m.length := addr_lt_of_len_pos m point (by omega)
  refine ⟨_, _, RosenbrockGradient_eq m point hn, ?_, ?_⟩
  · show (content (m ++ [_]) ⟨m.length⟩).length = _
    rw [content_append_fresh, List.length_map, List.length_range]
  · intro i hi
    refine ⟨fun t => ∑ k in Finset.range ((content m point).length - 1),
      rosenTerm (((content m point).set i t).getD k 0)
        (((content m point).set i t).getD (k + 1) 0), ?_, ?_⟩
    · intro t
      rw [RosenbrockFunction_eq]
      have hl : len (update m point i t) point = (content m point).length := by
        show (content (update m point i t) point).length = _
        rw [content_update m point i t hv, List.length_set]
      rw [hl, content_update m point i t hv]
    · rw [content_append_fresh, getD_map_range _ _ _ hi]
      exact rosenSum_hasDerivAt (content m point) hn i hi

theorem rosenbrock_gradient_is_gradient_witness :
    2 ≤ len ([[1, 2, 3]] : Memory ℝ) ⟨0⟩ ∧
    ∃ gradient m', RosenbrockGradient ([[1, 2, 3]] : Memory ℝ) ⟨0⟩ = .ok (gradient, m') ∧
      len m' gradient = len ([[1, 2, 3]] : Memory ℝ) ⟨0⟩ ∧
      ∀ i, i < len ([[1, 2, 3]] : Memory ℝ) ⟨0⟩ → ∃ f : ℝ → ℝ,
        (∀ t, RosenbrockFunction (update ([[1, 2, 3]] : Memory ℝ) ⟨0⟩ i t) ⟨0⟩ =
          .ok (f t, update ([[1, 2, 3]] : Memory ℝ) ⟨0⟩ i t)) ∧
        HasDerivAt f ((content m' gradient).getD i 0)
          ((content ([[1, 2, 3]] : Memory ℝ) ⟨0⟩).getD i 0) :=
  ⟨by decide, rosenbrock_gradient_is_gradient ([[1, 2, 3]] : Memory ℝ) ⟨0⟩ (by decide)⟩

/-- C2: over the reals, for every point of any length, including 0,
`SphereFunction.Evaluate` returns the sum of the squares of the coordinates
and `SphereFunction.EvaluateGradient` returns its gradient: for every index
`i`, component `i` of the returned slice is `2 * point[i]`, and it is the
derivative at `point[i]` of the value `Evaluate` returns, taken as a function
`f` of coordinate `i` with the other coordinates fixed. -/
theorem sphere_gradient_is_gradient (sf : SphereFunction) (m : Memory ℝ) (point : Slice) :
    sf.Evaluate m point = .ok (((content m point).map (fun x => x ^ 2)).sum, m) ∧
    ∃ gradient m', sf.EvaluateGradient m point = .ok (gradient, m') ∧
      len m' gradient = len m point ∧
      ∀ i, i < len m point →
        (content m' gradient).getD i 0 = 2 * (content m point).getD i 0 ∧
        ∃ f : ℝ → ℝ,
          (∀ t, sf.Evaluate (update m point i t) point = .ok (f t, update m point i t)) ∧
          HasDerivAt f ((content m' gradient).getD i 0) ((content m point).getD i 0) := by
  refine ⟨?_, _, _, EvaluateGradient_eq sf m point, ?_, ?_⟩
  · rw [Evaluate_eq]
    simp only [pow_two]
  · show (content (m ++ [_]) ⟨m.length⟩).length = _
    rw [content_append_fresh, List.length_map]
    rfl
  · intro i hi
    have hv : point.addr < m.length := addr_lt_of_len_pos m point (by omega)
    have hi' : i < (content m point).length := hi
    have hg : (content (m ++ [(content m point).map (fun x => 2 * x)]) ⟨m.length⟩).getD i 0 =
        2 * (content m point).getD i 0 := by
      rw [content_append_fresh]
      simp [List.getD_eq_getElem?_getD, List.getElem?_eq_getElem hi']
    refine ⟨hg, fun t => (((content m point).set i t).map (fun x => x * x)).sum, ?_, ?_⟩
    · intro t
      rw [Evaluate_eq, content_update m point i t hv]
    · rw [hg]
      exact sumsq_hasDerivAt (content m point) i hi

theorem sphere_gradient_is_gradient_witness :
    1 < len ([[3, 4]] : Memory ℝ) ⟨0⟩ ∧
    ∃ gradient m', SphereFunction.EvaluateGradient {} ([[3, 4]] : Memory ℝ) ⟨0⟩ =
        .ok (gradient, m') ∧
      (content m' gradient).getD 1 0 = 2 * (content ([[3, 4]] : Memory ℝ) ⟨0⟩).getD 1 0 ∧
      ∃ f : ℝ → ℝ,
        (∀ t, SphereFunction.Evaluate {} (update ([[3, 4]] : Memory ℝ) ⟨0⟩ 1 t) ⟨0⟩ =
          .ok (f t, update ([[3, 4]] : Memory ℝ) ⟨0⟩ 1 t)) ∧
        HasDerivAt f ((content m' gradient).getD 1 0)
          ((content ([[3, 4]] : Memory ℝ) ⟨0⟩).getD 1 0) := by
  obtain ⟨_, gradient, m', h1, _, h3⟩ :=
    sphere_gradient_is_gradient {} ([[3, 4]] : Memory ℝ) ⟨0⟩
  exact ⟨by decide, gradient, m', h1, h3 1 (by decide)⟩


/-- C3: the gradient returned by each example callback has the length of the
point it was given: `SphereFunction.EvaluateGradient` returns a slice of length
`len(point)` for every point, and `RosenbrockGradient` does for every point of
length at least 2. -/
theorem gradient_length {R : Type} [CommRing R] (sf : SphereFunction) (m : Memory R)
    (point : Slice) :
    (∃ gradient m', sf.EvaluateGradient m point = .ok (gradient, m') ∧
      len m' gradient = len m point) ∧
    (2 ≤ len m point → ∃ gradient m', RosenbrockGradient m point = .ok (gradient, m') ∧
      len m' gradient = len m point) := by
  refine ⟨⟨_, _, EvaluateGradient_eq sf m point, ?_⟩, fun hn =>
    ⟨_, _, RosenbrockGradient_eq m point hn, ?_⟩⟩
  · show (content (m ++ [_]) ⟨m.length⟩).length = _
    rw [content_append_fresh, List.length_map]
    rfl
  · show (content (m ++ [_]) ⟨m.length⟩).length = _
    rw [content_append_fresh, List.length_map, List.length_range]

theorem gradient_length_witness :
    2 ≤ len ([[1, 2, 3]] : Memory ℚ) ⟨0⟩ ∧
    ∃ gradient m', RosenbrockGradient ([[1, 2, 3]] : Memory ℚ) ⟨0⟩ = .ok (gradient, m') ∧
      len m' gradient = len ([[1, 2, 3]] : Memory ℚ) ⟨0⟩ :=
  ⟨by decide, (gradient_length {} ([[1, 2, 3]] : Memory ℚ) ⟨0⟩).2 (by decide)⟩

/-- C4: none of the four objective callbacks alters the point passed to it.
Whenever a callback returns, the memory that existed before the call is
unchanged (the callbacks write only to the slice they allocate), so every
element of `point` holds the value it held before.  The two sphere callbacks
and `RosenbrockFunction` return on every input. -/
theorem callbacks_preserve_point {R : Type} [CommRing R] (sf : SphereFunction)
    (m : Memory R) (point : Slice) :
    (∃ value m', sf.Evaluate m point = .ok (value, m') ∧
      m'.take m.length = m ∧ content m' point = content m point) ∧
    (∃ gradient m', sf.EvaluateGradient m point = .ok (gradient, m') ∧
      m'.take m.length = m ∧ content m' point = content m point) ∧
    (∃ value m', RosenbrockFunction m point = .ok (value, m') ∧
      m'.take m.length = m ∧ content m' point = content m point) ∧
    (∀ gradient m', RosenbrockGradient m point = .ok (gradient, m') →
      m'.take m.length = m ∧ content m' point = content m point) := by
  refine ⟨⟨_, _, Evaluate_eq sf m point, by simp, rfl⟩,
    ⟨_, _, EvaluateGradient_eq sf m point, by simp, ?_⟩,
    ⟨_, _, RosenbrockFunction_eq m point, by simp, rfl⟩, ?_⟩
  · exact content_append_result m point _ (by rw [List.length_map]; rfl)
  · intro gradient m' h
    by_cases hn : 2 ≤ len m point
    · rw [RosenbrockGradient_eq m point hn] at h
      injection h with h
      injection h with _ hm
      subst hm
      exact ⟨by simp, content_append_result m point _ (by simp)⟩
    · exfalso
      have h01 : len m point = 0 ∨ len m point = 1 := by omega
      rcases h01 with h0 | h1
      · rw [RosenbrockGradient_len_zero m point h0] at h
        cases h
      · rw [RosenbrockGradient_len_one m point h1] at h
        cases h

theorem callbacks_preserve_point_witness :
    RosenbrockGradient ([[7], [1, 2, 3]] : Memory ℚ) ⟨1⟩ =
      .ok (⟨2⟩, [[7], [1, 2, 3], [-400, 1002, -200]]) ∧
    List.take 2 ([[7], [1, 2, 3], [-400, 1002, -200]] : Memory ℚ) = [[7], [1, 2, 3]] ∧
    content ([[7], [1, 2, 3], [-400, 1002, -200]] : Memory ℚ) ⟨1⟩ =
      content ([[7], [1, 2, 3]] : Memory ℚ) ⟨1⟩ := by
  have h : RosenbrockGradient ([[7], [1, 2, 3]] : Memory ℚ) ⟨1⟩ =
      .ok (⟨2⟩, [[7], [1, 2, 3], [-400, 1002, -200]]) := by
    rw [RosenbrockGradient_eq _ _ (by decide)]
    simp [len, content, List.range, List.range.loop, rosenGradAt, Pow2]
    norm_num
  exact ⟨h, (callbacks_preserve_point {} ([[7], [1, 2, 3]] : Memory ℚ) ⟨1⟩).2.2.2 _ _ h⟩

/-- C7: the expected minima declared in `main` are consistent triples.  At a
zero vector of any length `n` the sphere callbacks return the value 0 and the
zero vector of length `n`; at an all-ones vector of any length `n ≥ 2` the
Rosenbrock callbacks return the value 0 and the zero vector of length `n`. -/
theorem expected_minima_consistent {R : Type} [CommRing R] (sf : SphereFunction)
    (m : Memory R) (point : Slice) (n : Nat) :
    (content m point = List.replicate n 0 →
      sf.Evaluate m point = .ok (0, m) ∧
      ∃ gradient m', sf.EvaluateGradient m point = .ok (gradient, m') ∧
        content m' gradient = List.replicate n 0) ∧
    (2 ≤ n → content m point = List.replicate n 1 →
      RosenbrockFunction m point = .ok (0, m) ∧
      ∃ gradient m', RosenbrockGradient m point = .ok (gradient, m') ∧
        content m' gradient = List.replicate n 0) := by
  constructor
  · intro hx
    refine ⟨?_, _, _, EvaluateGradient_eq sf m point, ?_⟩
    · rw [Evaluate_eq, hx]
      simp
    · rw [content_append_fresh, hx]
      simp
  · intro hn hx
    have hlen : len m point = n := by
      show (content m point).length = n
      rw [hx, List.length_replicate]
    refine ⟨?_, _, _, RosenbrockGradient_eq m point (by omega), ?_⟩
    · rw [RosenbrockFunction_eq, hx, hlen]
      have : ∑ k in Finset.range (n - 1),
          rosenTerm ((List.replicate n (1 : R)).getD k 0)
            ((List.replicate n (1 : R)).getD (k + 1) 0) = 0 := by
        apply Finset.sum_eq_zero
        intro k hk
        have hk' : k < n - 1 := Finset.mem_range.mp hk
        rw [getD_replicate_lt n k 1 (by omega), getD_replicate_lt n (k + 1) 1 (by omega)]
        simp [rosenTerm, Pow2]
      rw [this]
    · rw [content_append_fresh, hx, hlen]
      rw [List.eq_replicate_iff]
      refine ⟨by simp, ?_⟩
      intro b hb
      obtain ⟨j, hj, rfl⟩ := List.mem_map.mp hb
      exact rosenGradAt_ones n j hn (List.mem_range.mp hj)

theorem expected_minima_consistent_witness :
    (content ([[0, 0, 0, 0, 0]] : Memory ℚ) ⟨0⟩ = List.replicate 5 0 ∧
      (SphereFunction.Evaluate {} ([[0, 0, 0, 0, 0]] : Memory ℚ) ⟨0⟩ =
          .ok (0, [[0, 0, 0, 0, 0]]) ∧
        ∃ gradient m', SphereFunction.EvaluateGradient {} ([[0, 0, 0, 0, 0]] : Memory ℚ) ⟨0⟩ =
            .ok (gradient, m') ∧
          content m' gradient = List.replicate 5 0)) ∧
    (2 ≤ 2 ∧ content ([[1, 1]] : Memory ℚ) ⟨0⟩ = List.replicate 2 1 ∧
      (RosenbrockFunction ([[1, 1]] : Memory ℚ) ⟨0⟩ = .ok (0, [[1, 1]]) ∧
        ∃ gradient m', RosenbrockGradient ([[1, 1]] : Memory ℚ) ⟨0⟩ = .ok (gradient, m') ∧
          content m' gradient = List.replicate 2 0)) :=
  ⟨⟨rfl, (expected_minima_consistent {} ([[0, 0, 0, 0, 0]] : Memory ℚ) ⟨0⟩ 5).1 rfl⟩,
    le_refl 2, rfl, (expected_minima_consistent {} ([[1, 1]] : Memory ℚ) ⟨0⟩ 2).2 (le_refl 2) rfl⟩

/-- C9, as amended: the split Rosenbrock callbacks are both defined exactly on
points of length at least 2.  `RosenbrockGradient` returns if and only if
`len(point) ≥ 2`; on a point of length 0 it fails with `index out of range [0]
with length 0`, raised by the read of `point[0]`, and on a point of length 1
with `index out of range [1] with length 1`, raised by the read of `point[1]`.
`RosenbrockFunction` returns on every point, and returns 0 on every point of
length 0 or 1. -/
theorem rosenbrock_domain {R : Type} [CommRing R] (m : Memory R) (point : Slice) :
    ((∃ gradient m', RosenbrockGradient m point = .ok (gradient, m')) ↔ 2 ≤ len m point) ∧
    (len m point = 0 → RosenbrockGradient m point = .error (.indexOutOfRange .load 0 0)) ∧
    (len m point = 1 → RosenbrockGradient m point = .error (.indexOutOfRange .load 1 1)) ∧
    (∃ value, RosenbrockFunction m point = .ok (value, m)) ∧
    (len m point ≤ 1 → RosenbrockFunction m point = .ok (0, m)) := by
  refine ⟨⟨?_, fun hn => ⟨_, _, RosenbrockGradient_eq m point hn⟩⟩,
    RosenbrockGradient_len_zero m point, RosenbrockGradient_len_one m point,
    ⟨_, RosenbrockFunction_eq m point⟩, ?_⟩
  · rintro ⟨gradient, m', h⟩
    by_contra hn
    have h01 : len m point = 0 ∨ len m point = 1 := by omega
    rcases h01 with h0 | h1
    · rw [RosenbrockGradient_len_zero m point h0] at h
      cases h
    · rw [RosenbrockGradient_len_one m point h1] at h
      cases h
  · intro hn
    rw [RosenbrockFunction_eq]
    have : len m point - 1 = 0 := by omega
    rw [this, Finset.sum_range_zero]

theorem rosenbrock_domain_witness :
    (len ([[]] : Memory ℚ) ⟨0⟩ = 0 ∧
      RosenbrockGradient ([[]] : Memory ℚ) ⟨0⟩ = .error (.indexOutOfRange .load 0 0)) ∧
    (len ([[5]] : Memory ℚ) ⟨0⟩ = 1 ∧
      RosenbrockGradient ([[5]] : Memory ℚ) ⟨0⟩ = .error (.indexOutOfRange .load 1 1)) ∧
    (len ([[5]] : Memory ℚ) ⟨0⟩ ≤ 1 ∧
      RosenbrockFunction ([[5]] : Memory ℚ) ⟨0⟩ = .ok (0, [[5]])) ∧
    (2 ≤ len ([[1, 2]] : Memory ℚ) ⟨0⟩ ∧
      ∃ gradient m', RosenbrockGradient ([[1, 2]] : Memory ℚ) ⟨0⟩ = .ok (gradient, m')) :=
  ⟨⟨rfl, (rosenbrock_domain ([[]] : Memory ℚ) ⟨0⟩).2.1 rfl⟩,
    ⟨rfl, (rosenbrock_domain ([[5]] : Memory ℚ) ⟨0⟩).2.2.1 rfl⟩,
    ⟨by decide, (rosenbrock_domain ([[5]] : Memory ℚ) ⟨0⟩).2.2.2.2 (by decide)⟩,
    ⟨by decide, (rosenbrock_domain ([[1, 2]] : Memory ℚ) ⟨0⟩).1.mpr (by decide)⟩⟩

/-- The claim C9 as first stated fails on the empty point: there
`RosenbrockGradient` does not fail in the write to `gradient[0]`.  The
right-hand side of the assignment is evaluated first, and its read of
`point[0]` raises the error. -/
theorem rosenbrock_domain_counterexample :
    len ([[]] : Memory ℚ) ⟨0⟩ = 0 ∧
    RosenbrockGradient ([[]] : Memory ℚ) ⟨0⟩ = .error (.indexOutOfRange .load 0 0) ∧
    RosenbrockGradient ([[]] : Memory ℚ) ⟨0⟩ ≠ .error (.indexOutOfRange .store 0 0) := by
  have h : RosenbrockGradient ([[]] : Memory ℚ) ⟨0⟩ = .error (.indexOutOfRange .load 0 0) :=
    RosenbrockGradient_len_zero _ _ rfl
  refine ⟨rfl, h, ?_⟩
  rw [h]
  intro hc
  injection hc with hc
  injection hc with ha
  cases ha

/-- C5: the zero vector is the unique global minimiser of the sphere objective,
with value 0.  Over the reals `SphereFunction.Evaluate` returns a value `≥ 0`
on every point, and the value is 0 if and only if every coordinate is 0. -/
theorem sphere_minimum (sf : SphereFunction) (m : Memory ℝ) (point : Slice) :
    ∃ value, sf.Evaluate m point = .ok (value, m) ∧ 0 ≤ value ∧
      (value = 0 ↔ ∀ x ∈ content m point, x = 0) :=
  ⟨_, Evaluate_eq sf m point, sumsq_nonneg _, sumsq_eq_zero_iff _⟩

/-- C6: the all-ones vector is the unique global minimiser of the Rosenbrock
objective, with value 0.  Over the reals, on every point of length at least 2
`RosenbrockFunction` returns a value `≥ 0`, and the value is 0 if and only if
every coordinate is 1. -/
theorem rosenbrock_minimum (m : Memory ℝ) (point : Slice) (hn : 2 ≤ len m point) :
    ∃ value, RosenbrockFunction m point = .ok (value, m) ∧ 0 ≤ value ∧
      (value = 0 ↔ ∀ x ∈ content m point, x = 1) :=
  ⟨_, RosenbrockFunction_eq m point,
    Finset.sum_nonneg (fun _ _ => rosenTerm_nonneg _ _),
    rosenSum_eq_zero_iff (content m point) hn⟩

theorem rosenbrock_minimum_witness :
    2 ≤ len ([[1, 1]] : Memory ℝ) ⟨0⟩ ∧
    ∃ value, RosenbrockFunction ([[1, 1]] : Memory ℝ) ⟨0⟩ = .ok (value, [[1, 1]]) ∧
      0 ≤ value ∧ (value = 0 ↔ ∀ x ∈ content ([[1, 1]] : Memory ℝ) ⟨0⟩, x = 1) :=
  ⟨by decide, rosenbrock_minimum ([[1, 1]] : Memory ℝ) ⟨0⟩ (by decide)⟩

/-- C10: for the two-dimensional Rosenbrock problem the expected minimum is the
only stationary point.  Over the reals, on every point of length 2
`RosenbrockGradient` returns, and the gradient it returns is the zero vector
if and only if the point is `(1, 1)`. -/
theorem rosenbrock_stationary_2d (m : Memory ℝ) (point : Slice) (hn : len m point = 2) :
    ∃ gradient m', RosenbrockGradient m point = .ok (gradient, m') ∧
      (content m' gradient = [0, 0] ↔ content m point = [1, 1]) := by
  refine ⟨_, _, RosenbrockGradient_eq m point (by omega), ?_⟩
  rw [content_append_fresh, hn]
  have hlen : (content m point).length = 2 := hn
  match hx : content m point, hlen with
  | [a, b], _ =>
    have h0 : rosenGradAt [a, b] 0 = -400 * a * (b - a * a) - 2 * (1 - a) := by
      simp [rosenGradAt, Pow2]
    have h1 : rosenGradAt [a, b] 1 = 200 * (b - a * a) := by
      simp [rosenGradAt, Pow2]
    have hr : (List.range 2).map (rosenGradAt [a, b]) =
        [rosenGradAt [a, b] 0, rosenGradAt [a, b] 1] := rfl
    rw [hr, h0, h1]
    simp only [List.cons.injEq, and_true]
    constructor
    · rintro ⟨e0, e1⟩
      have hb : b = a * a := by linarith
      have ha : a = 1 := by
        rw [hb] at e0
        linarith
      subst ha
      exact ⟨rfl, by linarith⟩
    · rintro ⟨rfl, rfl⟩
      norm_num

theorem rosenbrock_stationary_2d_witness :
    len ([[1, 1]] : Memory ℝ) ⟨0⟩ = 2 ∧
    ∃ gradient m', RosenbrockGradient ([[1, 1]] : Memory ℝ) ⟨0⟩ = .ok (gradient, m') ∧
      (content m' gradient = [0, 0] ↔ content ([[1, 1]] : Memory ℝ) ⟨0⟩ = [1, 1]) :=
  ⟨by decide, rosenbrock_stationary_2d ([[1, 1]] : Memory ℝ) ⟨0⟩ (by decide)⟩

end GoLbfgsb
